import Mathlib

/-!
Shallow embedding of the crash-safe write-ahead log described by the
repository's blog post (`src/unnamed/part_000`).  The post publishes the
record-format constants, the trailer sentinel, the CRC verification slice
and `alignUp`; the full Go implementation lives in an external repository,
so `encode`/`decode`/`Scan`/the writer are modelled from the specification
(sections 4.1-4.3), faithful to its words, on byte lists (`List Nat`,
entries < 256 where well-formedness matters).
-/

namespace WAL

/-- Record-format constants from the post's `const` block. -/
def crcSize : Nat := 4

def lenSize : Nat := 4

def trailerSize : Nat := 8

def headerSize : Nat := crcSize + lenSize

/-- The fixed 8-byte trailer sentinel `0xDEADBEEFFEEDFACE`. -/
def trailerMagic : Nat := 0xDEADBEEFFEEDFACE

/-- Modelled from the spec: the 32-bit checksum is `crc32.Checksum` with a
package-level table; the concrete polynomial is not in this repository, so
the standard reflected CRC-32 polynomial is used.  Only its byte range and
single-byte-difference sensitivity matter to the claims. -/
def crcPoly : Nat := 0xEDB88320

/-- One bit-step of the reflected CRC-32 state update. -/
def crc32Step (s : Nat) : Nat :=
  if s % 2 = 1 then s / 2 ^^^ crcPoly else s / 2

/-- Iterate `crc32Step`. -/
def crc32Rounds : Nat → Nat → Nat
  | 0, s => s
  | n + 1, s => crc32Rounds n (crc32Step s)

/-- Feed a byte sequence into the CRC-32 state. -/
def crc32Update (s : Nat) (bs : List Nat) : Nat :=
  bs.foldl (fun st b => crc32Rounds 8 (st ^^^ b % 256)) s

/-- CRC-32 of a byte sequence (initial value and final xor `0xFFFFFFFF`). -/
def crc32 (bs : List Nat) : Nat :=
  crc32Update 0xFFFFFFFF bs ^^^ 0xFFFFFFFF

/-- Little-endian 32-bit encoding (`binary.LittleEndian.PutUint32`). -/
def le32 (n : Nat) : List Nat :=
  [n % 256, n / 2 ^ 8 % 256, n / 2 ^ 16 % 256, n / 2 ^ 24 % 256]

/-- Little-endian 64-bit encoding (`binary.LittleEndian.PutUint64`). -/
def le64 (n : Nat) : List Nat :=
  [n % 256, n / 2 ^ 8 % 256, n / 2 ^ 16 % 256, n / 2 ^ 24 % 256,
   n / 2 ^ 32 % 256, n / 2 ^ 40 % 256, n / 2 ^ 48 % 256, n / 2 ^ 56 % 256]

/-- Little-endian read of a byte list (`binary.LittleEndian.Uint32/Uint64`). -/
def readLE (bs : List Nat) : Nat :=
  bs.foldr (fun b acc => b + 256 * acc) 0

/-- The trailer sentinel as on-disk bytes. -/
def trailerBytes : List Nat := le64 trailerMagic

/-- Embeds the post's `func alignUp(n int64) int64 { return (n + 7) &^ 7 }`:
for a nonnegative operand, `x &^ 7` (AND NOT) equals `x - (x &&& 7)`. -/
def alignUp (n : Nat) : Nat := n + 7 - (n + 7 &&& 7)

/-- Total on-disk size of a record with payload length `len`:
header + payload + trailer, rounded up to the 8-byte boundary. -/
def encSize (len : Nat) : Nat := alignUp (headerSize + len + trailerSize)

/-- Number of zero padding bytes after the trailer. -/
def padLen (len : Nat) : Nat := encSize len - (headerSize + len + trailerSize)

/-- Modelled from the spec: `Encode` emits checksum, length, payload,
trailer, padding in that order, all integers little-endian; the checksum
covers `length ‖ payload`. -/
def encodeBytes (p : List Nat) : List Nat :=
  le32 (crc32 (le32 p.length ++ p)) ++ le32 p.length ++ p ++
    trailerBytes ++ List.replicate (padLen p.length) 0

/-- Error taxonomy of spec section 7. -/
inductive Err
  | shortRead
  | invalidLength
  | incompleteRecord
  | corrupt
  | payloadTooLarge
deriving DecidableEq, Repr

/-- Modelled from the spec: `Encode` is total within the configured bound
and fails with `ErrPayloadTooLarge` otherwise. -/
def encode (maxP : Nat) (p : List Nat) : Except Err (List Nat) :=
  if p.length > maxP then .error .payloadTooLarge else .ok (encodeBytes p)

/-- The checksum recomputed by `Decode`, exactly as in the post's snippet
`crc32.Checksum(buf[4:], crcTable)` where `buf` holds header and payload:
the bytes after the checksum field up to the end of the payload. -/
def crcComputed (rest : List Nat) (len : Nat) : Nat :=
  crc32 ((rest.drop crcSize).take (lenSize + len))

/-- Modelled from the spec: `Decode` on the bytes from the current offset to
the end of the file, with the validation order of section 4.1 — header
availability, length bound, payload availability, trailer availability,
trailer value, checksum, padding availability.  Returns the payload and the
total consumed size. -/
def decodeRest (maxP : Nat) (rest : List Nat) : Except Err (List Nat × Nat) :=
  if rest.length < headerSize then .error .shortRead else
  let crcStored := readLE (rest.take crcSize)
  let len := readLE ((rest.drop crcSize).take lenSize)
  if len > maxP then .error .invalidLength else
  let afterHeader := rest.drop headerSize
  if afterHeader.length < len then .error .shortRead else
  let payload := afterHeader.take len
  let trailerRegion := afterHeader.drop len
  if trailerRegion.length < trailerSize then .error .shortRead else
  if readLE (trailerRegion.take trailerSize) ≠ trailerMagic then .error .incompleteRecord else
  if crcStored ≠ crcComputed rest len then .error .corrupt else
  if rest.length < encSize len then .error .shortRead else
  .ok (payload, encSize len)

/-- Modelled from the spec: `Decode(reader, offset)` reads sequentially from
byte `off` of the file. -/
def decode (maxP : Nat) (file : List Nat) (off : Nat) : Except Err (List Nat × Nat) :=
  decodeRest maxP (file.drop off)

/-- Scan outcomes, the tagged sum of spec section 9. -/
inductive Outcome
  | clean
  | incomplete
  | corrupt
deriving DecidableEq, Repr

/-- Result of a recovery scan: the ordered valid records (start offset and
payload) and the safe offset. -/
structure ScanResult where
  records : List (Nat × List Nat)
  safeOffset : Nat
  outcome : Outcome
deriving DecidableEq, Repr

/-- Modelled from the spec: the recovery loop of section 4.3.  Fuel-indexed
so that the recursion is structural; `file.length + 1` fuel always
suffices because every decoded record consumes at least 16 bytes. -/
def scanAux (maxP : Nat) (file : List Nat) : Nat → Nat → ScanResult
  | 0, off => ⟨[], off, .clean⟩
  | fuel + 1, off =>
    match decode maxP file off with
    | .ok (p, size) =>
      let r := scanAux maxP file fuel (off + size)
      ⟨(off, p) :: r.records, r.safeOffset, r.outcome⟩
    | .error .shortRead => ⟨[], off, .clean⟩
    | .error .incompleteRecord => ⟨[], off, .incomplete⟩
    | .error _ => ⟨[], off, .corrupt⟩

/-- Modelled from the spec: `Scan(file)` starts at offset 0. -/
def Scan (maxP : Nat) (file : List Nat) : ScanResult :=
  scanAux maxP file (file.length + 1) 0

/-- Modelled from the spec: the single-writer state — configured maximum,
file contents, current append offset. -/
structure Writer where
  maxPayload : Nat
  file : List Nat
  offset : Nat
deriving DecidableEq, Repr

/-- Modelled from the spec: `Append` validates the payload length before
any I/O, then writes the encoded record at the end of the file. -/
def Append (w : Writer) (p : List Nat) : Except Err Nat × Writer :=
  if p.length > w.maxPayload then (.error .payloadTooLarge, w)
  else (.ok w.offset,
    ⟨w.maxPayload, w.file ++ encodeBytes p, w.offset + (encodeBytes p).length⟩)

/-- Modelled from the spec: `Scan` as a state-passing operation on the file
contents — the scanner performs no writes, so the file is returned
unchanged. -/
def ScanFile (maxP : Nat) (file : List Nat) : ScanResult × List Nat :=
  (Scan maxP file, file)

/-- Modelled from the spec: `Open` runs recovery, truncates the file to the
recovered safe offset and positions the writer for append. -/
def Open (maxP : Nat) (file : List Nat) : Writer :=
  ⟨maxP, file.take (Scan maxP file).safeOffset, (Scan maxP file).safeOffset⟩

/-- A log file fully written by the writer: the concatenation of the
encodings of its payloads. -/
def logBytes (ps : List (List Nat)) : List Nat :=
  (ps.map encodeBytes).flatten

/-- The records, with their start offsets, of a fully-written log laid out
from offset `off`. -/
def recsFrom (off : Nat) : List (List Nat) → List (Nat × List Nat)
  | [] => []
  | p :: ps => (off, p) :: recsFrom (off + encSize p.length) ps

/-- Start offset of record `k` (0-based) in a fully-written log; for
`k = ps.length` this is the total log size. -/
def offsetOf (ps : List (List Nat)) (k : Nat) : Nat :=
  ((ps.take k).map fun p => encSize p.length).sum

/-- Well-formed payload: genuine bytes. -/
def WFPayload (p : List Nat) : Prop := ∀ b ∈ p, b < 256

/-- Well-formed log input: every payload within the configured bound and
made of genuine bytes. -/
def WFLog (maxP : Nat) (ps : List (List Nat)) : Prop :=
  ∀ p ∈ ps, p.length ≤ maxP ∧ WFPayload p

instance : DecidablePred WFPayload := fun p =>
  inferInstanceAs (Decidable (∀ b ∈ p, b < 256))

instance (maxP : Nat) : DecidablePred (WFLog maxP) := fun ps =>
  inferInstanceAs (Decidable (∀ p ∈ ps, p.length ≤ maxP ∧ WFPayload p))

/-- Flip bit `bit % 8` of byte `bit / 8` of a byte sequence. -/
def flipBitAt (bs : List Nat) (bit : Nat) : List Nat :=
  bs.set (bit / 8) (bs.getD (bit / 8) 0 ^^^ 2 ^ (bit % 8))

/-! ### Arithmetic of `alignUp` and record sizes -/

theorem alignUp_eq (n : Nat) : alignUp n = n + 7 - (n + 7) % 8 := by
  have h : n + 7 &&& 7 = (n + 7) % 8 := by
    have := Nat.and_pow_two_sub_one_eq_mod (n + 7) 3
    norm_num at this
    exact this
  simp [alignUp, h]

theorem alignUp_le_self (n : Nat) : n ≤ alignUp n := by
  rw [alignUp_eq]
  have := Nat.mod_lt (n + 7) (y := 8) (by norm_num)
  omega

theorem alignUp_mod (n : Nat) : alignUp n % 8 = 0 := by
  rw [alignUp_eq]
  omega

theorem alignUp_lt (n : Nat) : alignUp n < n + 8 := by
  rw [alignUp_eq]
  omega

theorem encSize_def (len : Nat) : encSize len = alignUp (16 + len) := by
  simp [encSize, headerSize, crcSize, lenSize, trailerSize]
  congr 1
  omega

theorem encSize_ge (len : Nat) : 16 + len ≤ encSize len := by
  rw [encSize_def]
  exact alignUp_le_self _

theorem encSize_mod (len : Nat) : encSize len % 8 = 0 := by
  rw [encSize_def]
  exact alignUp_mod _

theorem encSize_lt (len : Nat) : encSize len < 16 + len + 8 := by
  rw [encSize_def]
  exact alignUp_lt _

theorem padLen_eq (len : Nat) : padLen len = encSize len - (16 + len) := by
  simp [padLen, headerSize, crcSize, lenSize, trailerSize]
  congr 1
  omega

/-! ### Little-endian fields -/

theorem le32_length (n : Nat) : (le32 n).length = 4 := by
  simp [le32]

theorem le64_length (n : Nat) : (le64 n).length = 8 := by
  simp [le64]

theorem le32_wf (n : Nat) : ∀ b ∈ le32 n, b < 256 := by
  intro b hb
  simp [le32] at hb
  rcases hb with h | h | h | h <;> omega

theorem le64_wf (n : Nat) : ∀ b ∈ le64 n, b < 256 := by
  intro b hb
  simp [le64] at hb
  rcases hb with h | h | h | h | h | h | h | h <;> omega

theorem readLE_le32 {n : Nat} (h : n < 2 ^ 32) : readLE (le32 n) = n := by
  simp [readLE, le32]
  norm_num at h ⊢
  omega

theorem readLE_le64 {n : Nat} (h : n < 2 ^ 64) : readLE (le64 n) = n := by
  simp [readLE, le64]
  norm_num at h ⊢
  omega

theorem readLE_cons (a : Nat) (l : List Nat) : readLE (a :: l) = a + 256 * readLE l := rfl

theorem readLE_inj : ∀ {l1 l2 : List Nat}, l1.length = l2.length →
    (∀ b ∈ l1, b < 256) → (∀ b ∈ l2, b < 256) → readLE l1 = readLE l2 → l1 = l2
  | [], [], _, _, _, _ => rfl
  | a :: l1, b :: l2, hlen, h1, h2, hr => by
    rw [readLE_cons, readLE_cons] at hr
    have ha : a < 256 := h1 a (by simp)
    have hb : b < 256 := h2 b (by simp)
    have hab : a = b := by omega
    have hrest : readLE l1 = readLE l2 := by omega
    subst hab
    have := readLE_inj (by simpa using hlen) (fun x hx => h1 x (by simp [hx]))
      (fun x hx => h2 x (by simp [hx])) hrest
    rw [this]

/-! ### Structure of `encodeBytes` -/

theorem encodeBytes_length (p : List Nat) :
    (encodeBytes p).length = encSize p.length := by
  have h := encSize_ge p.length
  simp [encodeBytes, le32_length, le64_length, trailerBytes, padLen_eq]
  omega

/-! ### CRC-32: state bounds and sensitivity to a single differing byte -/

theorem crcPoly_lt : crcPoly < 2 ^ 32 := by decide

theorem crc32Step_lt {s : Nat} (h : s < 2 ^ 32) : crc32Step s < 2 ^ 32 := by
  unfold crc32Step
  split
  · exact Nat.xor_lt_two_pow (by omega) crcPoly_lt
  · omega

theorem xor_crcPoly_ge {x : Nat} (h : x < 2 ^ 31) : 2 ^ 31 ≤ x ^^^ crcPoly := by
  have hbit : (x ^^^ crcPoly).testBit 31 = true := by
    rw [Nat.testBit_xor, Nat.testBit_lt_two_pow h]
    decide
  exact Nat.testBit_implies_ge hbit

theorem crc32Step_inj {s1 s2 : Nat} (h1 : s1 < 2 ^ 32) (h2 : s2 < 2 ^ 32)
    (h : crc32Step s1 = crc32Step s2) : s1 = s2 := by
  unfold crc32Step at h
  have hp1 : s1 / 2 < 2 ^ 31 := by omega
  have hp2 : s2 / 2 < 2 ^ 31 := by omega
  split at h <;> split at h
  · have hq : s1 / 2 = s2 / 2 := by
      have := congrArg (fun x => x ^^^ crcPoly) h
      simpa [Nat.xor_assoc] using this
    omega
  · exact absurd (h ▸ xor_crcPoly_ge hp1) (by omega)
  · exact absurd (h.symm ▸ xor_crcPoly_ge hp2) (by omega)
  · omega

theorem crc32Rounds_lt : ∀ (n : Nat) {s : Nat}, s < 2 ^ 32 → crc32Rounds n s < 2 ^ 32
  | 0, _, h => h
  | n + 1, _, h => crc32Rounds_lt n (crc32Step_lt h)

theorem crc32Rounds_inj : ∀ (n : Nat) {s1 s2 : Nat}, s1 < 2 ^ 32 → s2 < 2 ^ 32 →
    crc32Rounds n s1 = crc32Rounds n s2 → s1 = s2
  | 0, _, _, _, _, h => h
  | n + 1, _, _, h1, h2, h =>
    crc32Step_inj h1 h2 (crc32Rounds_inj n (crc32Step_lt h1) (crc32Step_lt h2) h)

theorem crc32Update_cons (s b : Nat) (bs : List Nat) :
    crc32Update s (b :: bs) = crc32Update (crc32Rounds 8 (s ^^^ b % 256)) bs := rfl

theorem crc32Update_append (s : Nat) (l1 l2 : List Nat) :
    crc32Update s (l1 ++ l2) = crc32Update (crc32Update s l1) l2 := by
  simp [crc32Update, List.foldl_append]

theorem crc32Update_lt : ∀ (bs : List Nat) {s : Nat}, s < 2 ^ 32 → crc32Update s bs < 2 ^ 32
  | [], _, h => h
  | b :: bs, s, h => by
    rw [crc32Update_cons]
    exact crc32Update_lt bs (crc32Rounds_lt 8 (Nat.xor_lt_two_pow h (by omega)))

theorem crc32Update_ne : ∀ (bs : List Nat) {s1 s2 : Nat}, s1 < 2 ^ 32 → s2 < 2 ^ 32 →
    s1 ≠ s2 → crc32Update s1 bs ≠ crc32Update s2 bs
  | [], _, _, _, _, hne => hne
  | b :: bs, s1, s2, h1, h2, hne => by
    rw [crc32Update_cons, crc32Update_cons]
    have hx1 : s1 ^^^ b % 256 < 2 ^ 32 := Nat.xor_lt_two_pow h1 (by omega)
    have hx2 : s2 ^^^ b % 256 < 2 ^ 32 := Nat.xor_lt_two_pow h2 (by omega)
    have hxne : s1 ^^^ b % 256 ≠ s2 ^^^ b % 256 := by
      intro hx
      exact hne (by
        have := congrArg (fun x => x ^^^ b % 256) hx
        simpa [Nat.xor_assoc] using this)
    exact crc32Update_ne bs (crc32Rounds_lt 8 hx1) (crc32Rounds_lt 8 hx2)
      (fun hr => hxne (crc32Rounds_inj 8 hx1 hx2 hr))

theorem crc32_lt (bs : List Nat) : crc32 bs < 2 ^ 32 :=
  Nat.xor_lt_two_pow (crc32Update_lt bs (by norm_num)) (by norm_num)

/-- Two equal-length messages that differ in exactly one byte have different
CRC-32 checksums: the reason a single bit flip in the length field or the
payload is always caught by the checksum comparison. -/
theorem crc32_single_byte_ne (pre suf : List Nat) (b1 b2 : Nat)
    (hne : b1 % 256 ≠ b2 % 256) :
    crc32 (pre ++ b1 :: suf) ≠ crc32 (pre ++ b2 :: suf) := by
  unfold crc32
  intro h
  have hu : crc32Update 0xFFFFFFFF (pre ++ b1 :: suf) =
      crc32Update 0xFFFFFFFF (pre ++ b2 :: suf) := by
    have := congrArg (fun x => x ^^^ 0xFFFFFFFF) h
    simpa [Nat.xor_assoc] using this
  rw [crc32Update_append, crc32Update_append] at hu
  have hst : crc32Update 0xFFFFFFFF pre < 2 ^ 32 := crc32Update_lt pre (by norm_num)
  rw [crc32Update_cons, crc32Update_cons] at hu
  have hx1 : crc32Update 0xFFFFFFFF pre ^^^ b1 % 256 < 2 ^ 32 :=
    Nat.xor_lt_two_pow hst (by omega)
  have hx2 : crc32Update 0xFFFFFFFF pre ^^^ b2 % 256 < 2 ^ 32 :=
    Nat.xor_lt_two_pow hst (by omega)
  have hxne : crc32Update 0xFFFFFFFF pre ^^^ b1 % 256 ≠
      crc32Update 0xFFFFFFFF pre ^^^ b2 % 256 := by
    intro hx
    apply hne
    have := congrArg (fun x => crc32Update 0xFFFFFFFF pre ^^^ x) hx
    simpa [← Nat.xor_assoc] using this
  exact crc32Update_ne suf (crc32Rounds_lt 8 hx1) (crc32Rounds_lt 8 hx2)
    (fun hr => hxne (crc32Rounds_inj 8 hx1 hx2 hr)) hu

/-! ### Decoding a structured record -/

theorem trailerMagic_lt : trailerMagic < 2 ^ 64 := by decide

theorem readLE_trailerBytes : readLE trailerBytes = trailerMagic :=
  readLE_le64 trailerMagic_lt

/-- `decodeRest` on a byte string laid out as a record whose length field is
well-formed: the remaining checks are, in order, the trailer value and the
checksum value. -/
theorem decodeRest_structured (maxP L : Nat) (c4 lp trl padding tail : List Nat)
    (hc4 : c4.length = 4) (hlp : lp.length = L) (htrl : trl.length = 8)
    (hpad : padding.length = padLen L) (hL : L ≤ maxP) (hm : maxP < 2 ^ 32) :
    decodeRest maxP (c4 ++ (le32 L ++ (lp ++ (trl ++ (padding ++ tail))))) =
      if readLE trl ≠ trailerMagic then .error .incompleteRecord
      else if readLE c4 ≠ crc32 (le32 L ++ lp) then .error .corrupt
      else .ok (lp, encSize L) := by
  have hLm : L < 2 ^ 32 := lt_of_le_of_lt hL hm
  have hsz := encSize_ge L
  have hpl := padLen_eq L
  have h4 : c4.length = crcSize := by simpa [crcSize] using hc4
  have h8 : trl.length = trailerSize := by simpa [trailerSize] using htrl
  have hrest : (c4 ++ (le32 L ++ (lp ++ (trl ++ (padding ++ tail))))).length
      = encSize L + tail.length := by
    simp [hc4, hlp, htrl, hpad, le32_length, hpl]
    omega
  have hdrop4 : (c4 ++ (le32 L ++ (lp ++ (trl ++ (padding ++ tail))))).drop crcSize
      = le32 L ++ (lp ++ (trl ++ (padding ++ tail))) := List.drop_left' h4
  have htake4 : (c4 ++ (le32 L ++ (lp ++ (trl ++ (padding ++ tail))))).take crcSize
      = c4 := List.take_left' h4
  have hlenfield : ((c4 ++ (le32 L ++ (lp ++ (trl ++ (padding ++ tail))))).drop crcSize).take lenSize
      = le32 L := by
    rw [hdrop4]
    exact List.take_left' (by simp [lenSize, le32_length])
  have hdrop8 : (c4 ++ (le32 L ++ (lp ++ (trl ++ (padding ++ tail))))).drop headerSize
      = lp ++ (trl ++ (padding ++ tail)) := by
    have : headerSize = crcSize + lenSize := rfl
    rw [this, ← List.drop_drop, hdrop4]
    exact List.drop_left' (by simp [lenSize, le32_length])
  have hpayload : (lp ++ (trl ++ (padding ++ tail))).take L = lp := List.take_left' hlp
  have htrailerR : (lp ++ (trl ++ (padding ++ tail))).drop L = trl ++ (padding ++ tail) :=
    List.drop_left' hlp
  have htrailer : (trl ++ (padding ++ tail)).take trailerSize = trl := List.take_left' h8
  have hcrcc : crcComputed (c4 ++ (le32 L ++ (lp ++ (trl ++ (padding ++ tail))))) L
      = crc32 (le32 L ++ lp) := by
    unfold crcComputed
    rw [hdrop4]
    have h1 : lenSize + L = (le32 L).length + L := by simp [lenSize, le32_length]
    rw [h1, List.take_append, hpayload]
  simp only [decodeRest]
  rw [hrest, htake4, hlenfield, readLE_le32 hLm, hdrop8, hpayload, htrailerR, htrailer,
    hcrcc]
  have g1 : ¬ (encSize L + tail.length < headerSize) := by
    simp [headerSize, crcSize, lenSize]
    omega
  have g2 : ¬ (L > maxP) := by omega
  have g3 : ¬ ((lp ++ (trl ++ (padding ++ tail))).length < L) := by
    simp [hlp]
  have g4 : ¬ ((trl ++ (padding ++ tail)).length < trailerSize) := by
    simp [htrl, trailerSize]
  have g5 : ¬ (encSize L + tail.length < encSize L) := by omega
  rw [if_neg g1, if_neg g2, if_neg g3, if_neg g4, if_neg g5]

/-- `encodeBytes` followed by anything, reassociated into the field layout
used by `decodeRest_structured`. -/
theorem encodeBytes_append (p tail : List Nat) :
    encodeBytes p ++ tail =
      le32 (crc32 (le32 p.length ++ p)) ++ (le32 p.length ++ (p ++
        (trailerBytes ++ (List.replicate (padLen p.length) 0 ++ tail)))) := by
  simp [encodeBytes, List.append_assoc]

/-- Decoding an encoded record (with any bytes following it) succeeds and
returns the payload and the aligned total size. -/
theorem decodeRest_encode (maxP : Nat) (p tail : List Nat) (hlen : p.length ≤ maxP)
    (hm : maxP < 2 ^ 32) :
    decodeRest maxP (encodeBytes p ++ tail) = .ok (p, encSize p.length) := by
  rw [encodeBytes_append,
    decodeRest_structured maxP p.length (le32 (crc32 (le32 p.length ++ p))) p
      trailerBytes (List.replicate (padLen p.length) 0) tail (le32_length _) rfl
      (by simp [trailerBytes, le64_length]) (by simp) hlen hm]
  rw [if_neg (by simp [readLE_trailerBytes]),
    if_neg (by simp [readLE_le32 (crc32_lt (le32 p.length ++ p))])]

/-- A successful decode consumed the aligned size of the returned payload,
at least 16 bytes, no more than what was available, and a multiple of 8. -/
theorem decodeRest_ok (maxP : Nat) (rest : List Nat) {p : List Nat} {size : Nat}
    (h : decodeRest maxP rest = .ok (p, size)) :
    size = encSize p.length ∧ 16 ≤ size ∧ size ≤ rest.length ∧ size % 8 = 0 := by
  simp only [decodeRest] at h
  split at h
  · simp at h
  split at h
  · simp at h
  split at h
  · simp at h
  split at h
  · simp at h
  split at h
  · simp at h
  split at h
  · simp at h
  split at h
  · simp at h
  rename_i g1 g2 g3 g4 g5 g6 g7
  simp only [Except.ok.injEq, Prod.mk.injEq] at h
  obtain ⟨hp, hs⟩ := h
  have hplen : p.length = readLE ((rest.drop crcSize).take lenSize) := by
    rw [← hp]
    simp at g3 ⊢
    omega
  rw [← hs, hplen]
  refine ⟨rfl, ?_, ?_, encSize_mod _⟩
  · have := encSize_ge (readLE ((rest.drop crcSize).take lenSize))
    omega
  · omega

/-- `decodeRest` never fails with the writer-side error. -/
theorem decodeRest_error (maxP : Nat) (rest : List Nat) {e : Err}
    (h : decodeRest maxP rest = .error e) : e ≠ .payloadTooLarge := by
  simp only [decodeRest] at h
  split at h
  · simp at h; simp [← h]
  split at h
  · simp at h; simp [← h]
  split at h
  · simp at h; simp [← h]
  split at h
  · simp at h; simp [← h]
  split at h
  · simp at h; simp [← h]
  split at h
  · simp at h; simp [← h]
  split at h
  · simp at h; simp [← h]
  simp at h

/-! ### The scan loop: shift, fuel irrelevance, chained offsets -/

theorem scanAux_succ (maxP : Nat) (file : List Nat) (fuel off : Nat) :
    scanAux maxP file (fuel + 1) off =
      match decode maxP file off with
      | .ok (p, size) =>
        ⟨(off, p) :: (scanAux maxP file fuel (off + size)).records,
         (scanAux maxP file fuel (off + size)).safeOffset,
         (scanAux maxP file fuel (off + size)).outcome⟩
      | .error .shortRead => ⟨[], off, .clean⟩
      | .error .incompleteRecord => ⟨[], off, .incomplete⟩
      | .error _ => ⟨[], off, .corrupt⟩ := rfl

/-- The outcome the scan loop reports for each decode error. -/
def errOutcome : Err → Outcome
  | .shortRead => .clean
  | .incompleteRecord => .incomplete
  | _ => .corrupt

theorem scanAux_ok {maxP : Nat} {file : List Nat} {off : Nat} {p : List Nat}
    {size : Nat} (fuel : Nat) (hd : decode maxP file off = .ok (p, size)) :
    scanAux maxP file (fuel + 1) off =
      ⟨(off, p) :: (scanAux maxP file fuel (off + size)).records,
       (scanAux maxP file fuel (off + size)).safeOffset,
       (scanAux maxP file fuel (off + size)).outcome⟩ := by
  rw [scanAux_succ, hd]

theorem scanAux_err {maxP : Nat} {file : List Nat} {off : Nat} {e : Err}
    (fuel : Nat) (hd : decode maxP file off = .error e) :
    scanAux maxP file (fuel + 1) off = ⟨[], off, errOutcome e⟩ := by
  rw [scanAux_succ, hd]
  cases e <;> rfl

/-- Scanning `pre ++ rest` from an offset past `pre` is scanning `rest`
with every offset shifted by `pre.length`. -/
theorem scanAux_shift (maxP : Nat) (pre rest : List Nat) :
    ∀ (fuel o : Nat),
      scanAux maxP (pre ++ rest) fuel (pre.length + o) =
        ⟨((scanAux maxP rest fuel o).records).map (fun q => (pre.length + q.1, q.2)),
         pre.length + (scanAux maxP rest fuel o).safeOffset,
         (scanAux maxP rest fuel o).outcome⟩
  | 0, o => rfl
  | fuel + 1, o => by
    have hdec : decode maxP (pre ++ rest) (pre.length + o) = decode maxP rest o := by
      unfold decode
      rw [List.drop_append]
    cases hd : decode maxP rest o with
    | ok v =>
      obtain ⟨p, size⟩ := v
      have hd1 : decode maxP (pre ++ rest) (pre.length + o) = .ok (p, size) := by
        rw [hdec, hd]
      rw [scanAux_ok fuel hd1, scanAux_ok fuel hd,
        show pre.length + o + size = pre.length + (o + size) from by omega,
        scanAux_shift maxP pre rest fuel (o + size)]
      simp
    | error e =>
      have hd1 : decode maxP (pre ++ rest) (pre.length + o) = .error e := by
        rw [hdec, hd]
      rw [scanAux_err fuel hd1, scanAux_err fuel hd]
      simp

/-- Any two sufficient fuels give the same scan result. -/
theorem scanAux_fuel (maxP : Nat) (file : List Nat) :
    ∀ (f1 f2 off : Nat), file.length - off < f1 → file.length - off < f2 →
      scanAux maxP file f1 off = scanAux maxP file f2 off
  | 0, _, _, h1, _ => absurd h1 (by omega)
  | _ + 1, 0, _, _, h2 => absurd h2 (by omega)
  | f1 + 1, f2 + 1, off, h1, h2 => by
    cases hd : decode maxP file off with
    | ok v =>
      obtain ⟨p, size⟩ := v
      have hb := decodeRest_ok maxP (file.drop off) hd
      have hdl : (file.drop off).length = file.length - off := by simp
      rw [scanAux_ok f1 hd, scanAux_ok f2 hd,
        scanAux_fuel maxP file f1 f2 (off + size) (by omega) (by omega)]
    | error e => rw [scanAux_err f1 hd, scanAux_err f2 hd]

/-- The offsets of a scan's record list form a chain from the start offset
to the safe offset, each record advancing by its aligned encoded size. -/
def Chain (off : Nat) : List (Nat × List Nat) → Nat → Prop
  | [], safeOff => safeOff = off
  | q :: recs, safeOff => q.1 = off ∧ Chain (off + encSize q.2.length) recs safeOff

theorem Chain_le {off safeOff : Nat} : ∀ {recs : List (Nat × List Nat)},
    Chain off recs safeOff → off ≤ safeOff
  | [], h => le_of_eq h.symm
  | _ :: _, ⟨_, hrec⟩ => by
    have := Chain_le hrec
    omega

theorem Chain_mem_lt {off safeOff : Nat} : ∀ {recs : List (Nat × List Nat)},
    Chain off recs safeOff → ∀ q ∈ recs, off ≤ q.1 ∧ q.1 < safeOff
  | [], _, q, hq => absurd hq (by simp)
  | r :: recs, ⟨hr, hrec⟩, q, hq => by
    have h16 := encSize_ge r.2.length
    rcases List.mem_cons.1 hq with rfl | hq'
    · have := Chain_le hrec
      omega
    · have := Chain_mem_lt hrec q hq'
      omega

theorem Chain_mod {off safeOff : Nat} : ∀ {recs : List (Nat × List Nat)},
    Chain off recs safeOff → off % 8 = 0 → safeOff % 8 = 0
  | [], h, hoff => h ▸ hoff
  | r :: recs, ⟨_, hrec⟩, hoff => by
    have h8 := encSize_mod r.2.length
    exact Chain_mod hrec (by omega)

theorem Chain_getLast {off safeOff : Nat} : ∀ {recs : List (Nat × List Nat)},
    Chain off recs safeOff →
      safeOff = (match recs.getLast? with
                 | none => off
                 | some q => q.1 + encSize q.2.length)
  | [], h => h
  | r :: recs, ⟨hr, hrec⟩ => by
    have ih := Chain_getLast hrec
    cases hl : recs.getLast? with
    | none =>
      have : recs = [] := by
        cases recs with
        | nil => rfl
        | cons a l => simp [List.getLast?_cons_cons] at hl
      subst this
      simp [List.getLast?_singleton]
      rw [ih] at *
      simp_all [Chain]
    | some q =>
      rw [hl] at ih
      have hcons : (r :: recs).getLast? = some q := by
        cases recs with
        | nil => simp at hl
        | cons a l => simpa [List.getLast?_cons_cons] using hl
      rw [hcons]
      exact ih

/-- Master invariant of the scan loop: with sufficient fuel, the records
chain from the start offset to the safe offset, and the decode at the safe
offset failed with the error matching the reported outcome. -/
theorem scanAux_spec (maxP : Nat) (file : List Nat) :
    ∀ (fuel off : Nat), file.length - off < fuel → off ≤ file.length →
      Chain off (scanAux maxP file fuel off).records (scanAux maxP file fuel off).safeOffset ∧
      (scanAux maxP file fuel off).safeOffset ≤ file.length ∧
      ((decode maxP file (scanAux maxP file fuel off).safeOffset = .error .shortRead ∧
          (scanAux maxP file fuel off).outcome = .clean) ∨
       (decode maxP file (scanAux maxP file fuel off).safeOffset = .error .incompleteRecord ∧
          (scanAux maxP file fuel off).outcome = .incomplete) ∨
       (decode maxP file (scanAux maxP file fuel off).safeOffset = .error .invalidLength ∧
          (scanAux maxP file fuel off).outcome = .corrupt) ∨
       (decode maxP file (scanAux maxP file fuel off).safeOffset = .error .corrupt ∧
          (scanAux maxP file fuel off).outcome = .corrupt))
  | 0, _, h1, _ => absurd h1 (by omega)
  | fuel + 1, off, h1, h2 => by
    rw [scanAux_succ]
    cases hd : decode maxP file off with
    | ok v =>
      obtain ⟨p, size⟩ := v
      have hb := decodeRest_ok maxP (file.drop off) hd
      have hdl : (file.drop off).length = file.length - off := by simp
      have ih := scanAux_spec maxP file fuel (off + size) (by omega) (by omega)
      refine ⟨⟨rfl, ?_⟩, ih.2.1, ih.2.2⟩
      have : size = encSize p.length := hb.1
      rw [← this]
      exact ih.1
    | error e =>
      cases e with
      | shortRead => exact ⟨rfl, h2, Or.inl ⟨hd, rfl⟩⟩
      | invalidLength => exact ⟨rfl, h2, Or.inr (Or.inr (Or.inl ⟨hd, rfl⟩))⟩
      | incompleteRecord => exact ⟨rfl, h2, Or.inr (Or.inl ⟨hd, rfl⟩)⟩
      | corrupt => exact ⟨rfl, h2, Or.inr (Or.inr (Or.inr ⟨hd, rfl⟩))⟩
      | payloadTooLarge => exact absurd rfl (decodeRest_error maxP (file.drop off) hd)

/-! ### Scanning a fully-written log -/

theorem logBytes_cons (p : List Nat) (ps : List (List Nat)) :
    logBytes (p :: ps) = encodeBytes p ++ logBytes ps := by
  simp [logBytes]

theorem logBytes_length (ps : List (List Nat)) :
    (logBytes ps).length = (ps.map fun p => encSize p.length).sum := by
  induction ps with
  | nil => rfl
  | cons p ps ih => simp [logBytes_cons, encodeBytes_length, ih]

theorem offsetOf_eq (ps : List (List Nat)) (k : Nat) :
    offsetOf ps k = (logBytes (ps.take k)).length := by
  rw [logBytes_length, offsetOf]

theorem recsFrom_shift (d : Nat) : ∀ (o : Nat) (ps : List (List Nat)),
    (recsFrom o ps).map (fun q => (d + q.1, q.2)) = recsFrom (d + o) ps
  | o, [] => rfl
  | o, p :: ps => by
    simp only [recsFrom, List.map_cons, recsFrom_shift d (o + encSize p.length) ps,
      Nat.add_assoc]

/-- Scanning a fully-written log with arbitrary bytes after it: the log's
records are all returned, and the scan continues into the trailing bytes
exactly as a scan of those bytes alone, shifted by the log's size. -/
theorem Scan_log_append (maxP : Nat) (ps : List (List Nat)) (junk : List Nat)
    (hlen : ∀ p ∈ ps, p.length ≤ maxP) (hm : maxP < 2 ^ 32) :
    Scan maxP (logBytes ps ++ junk) =
      ⟨recsFrom 0 ps ++ (Scan maxP junk).records.map
          (fun q => ((logBytes ps).length + q.1, q.2)),
       (logBytes ps).length + (Scan maxP junk).safeOffset,
       (Scan maxP junk).outcome⟩ := by
  induction ps with
  | nil =>
    simp [logBytes, recsFrom]
  | cons p ps ih =>
    have hp : p.length ≤ maxP := hlen p (by simp)
    have hps : ∀ q ∈ ps, q.length ≤ maxP := fun q hq => hlen q (by simp [hq])
    have hfile : logBytes (p :: ps) ++ junk =
        encodeBytes p ++ (logBytes ps ++ junk) := by
      rw [logBytes_cons, List.append_assoc]
    have hd : decode maxP (encodeBytes p ++ (logBytes ps ++ junk)) 0 =
        .ok (p, encSize p.length) := by
      unfold decode
      rw [List.drop_zero]
      exact decodeRest_encode maxP p (logBytes ps ++ junk) hp hm
    have hlen1 : (encodeBytes p ++ (logBytes ps ++ junk)).length =
        encSize p.length + (logBytes ps ++ junk).length := by
      simp [encodeBytes_length]
    have h16 := encSize_ge p.length
    rw [hfile]
    unfold Scan
    rw [hlen1]
    rw [scanAux_ok (encSize p.length + (logBytes ps ++ junk).length) hd]
    have hoff : 0 + encSize p.length = (encodeBytes p).length + 0 := by
      simp [encodeBytes_length]
    rw [hoff, scanAux_shift]
    have hfuel : scanAux maxP (logBytes ps ++ junk)
        (encSize p.length + (logBytes ps ++ junk).length) 0 =
        Scan maxP (logBytes ps ++ junk) := by
      unfold Scan
      exact scanAux_fuel maxP _ _ _ 0 (by omega) (by omega)
    rw [hfuel, ih hps]
    simp [recsFrom, encodeBytes_length, recsFrom_shift, List.map_map,
      Function.comp_def, Nat.add_assoc, logBytes_cons, Scan]

/-! ### Decoding a strict prefix of an encoded record -/

theorem encodeBytes_assoc (p : List Nat) :
    encodeBytes p = le32 (crc32 (le32 p.length ++ p)) ++ (le32 p.length ++ (p ++
      (trailerBytes ++ List.replicate (padLen p.length) 0))) := by
  simp [encodeBytes, List.append_assoc]

theorem decodeRest_take_encode (maxP : Nat) (p : List Nat) (t : Nat)
    (hlen : p.length ≤ maxP) (hm : maxP < 2 ^ 32)
    (ht : t < (encodeBytes p).length) :
    decodeRest maxP ((encodeBytes p).take t) = .error .shortRead := by
  have hLm : p.length < 2 ^ 32 := lt_of_le_of_lt hlen hm
  have hebl : (encodeBytes p).length = encSize p.length := encodeBytes_length p
  have hpl := padLen_eq p.length
  have hsz := encSize_ge p.length
  have hrl : ((encodeBytes p).take t).length = t := by
    simp [List.length_take]
    omega
  by_cases h8 : t < 8
  · simp only [decodeRest]
    rw [if_pos]
    rw [hrl]
    simp [headerSize, crcSize, lenSize]
    omega
  -- field slices, valid once t ≥ 8
  have hcrcf : ((encodeBytes p).take t).take crcSize =
      le32 (crc32 (le32 p.length ++ p)) := by
    rw [List.take_take]
    have : min crcSize t = crcSize := by simp [crcSize]; omega
    rw [this, encodeBytes_assoc]
    exact List.take_left' (le32_length _)
  have hdrop4 : ((encodeBytes p).take t).drop crcSize =
      ((encodeBytes p).drop crcSize).take (t - crcSize) := by
    rw [List.drop_take]
  have hdrop4eb : (encodeBytes p).drop crcSize =
      le32 p.length ++ (p ++ (trailerBytes ++ List.replicate (padLen p.length) 0)) := by
    rw [encodeBytes_assoc]
    exact List.drop_left' (le32_length _)
  have hlenf : (((encodeBytes p).take t).drop crcSize).take lenSize = le32 p.length := by
    rw [hdrop4, List.take_take, hdrop4eb]
    have : min lenSize (t - crcSize) = lenSize := by simp [lenSize, crcSize]; omega
    rw [this]
    exact List.take_left' (le32_length _)
  have hdrop8eb : (encodeBytes p).drop headerSize =
      p ++ (trailerBytes ++ List.replicate (padLen p.length) 0) := by
    have h : headerSize = crcSize + lenSize := rfl
    rw [h, ← List.drop_drop, hdrop4eb]
    exact List.drop_left' (le32_length _)
  have hafter : ((encodeBytes p).take t).drop headerSize =
      ((encodeBytes p).drop headerSize).take (t - headerSize) := by
    rw [List.drop_take]
  have hafterlen : (((encodeBytes p).take t).drop headerSize).length = t - 8 := by
    rw [hafter]
    simp [headerSize, crcSize, lenSize, hebl]
    omega
  simp only [decodeRest]
  rw [hrl, hcrcf, hlenf, readLE_le32 hLm, hafterlen]
  rw [if_neg (by simp [headerSize, crcSize, lenSize]; omega), if_neg (by omega)]
  by_cases hB : t - 8 < p.length
  · rw [if_pos hB]
  rw [if_neg hB]
  have htrailR : (((encodeBytes p).take t).drop headerSize).drop p.length =
      ((trailerBytes ++ List.replicate (padLen p.length) 0)).take (t - 8 - p.length) := by
    rw [hafter, hdrop8eb, List.drop_take, List.drop_left' rfl]
    congr 1
  have htrailRlen : ((((encodeBytes p).take t).drop headerSize).drop p.length).length =
      t - 8 - p.length := by
    rw [htrailR]
    simp [trailerBytes, le64_length, hebl]
    omega
  rw [htrailRlen]
  by_cases hC : t - 8 - p.length < 8
  · rw [if_pos (by simp [trailerSize]; omega)]
  rw [if_neg (by simp [trailerSize]; omega)]
  have htr8 : ((((encodeBytes p).take t).drop headerSize).drop p.length).take trailerSize
      = trailerBytes := by
    rw [htrailR, List.take_take]
    have : min trailerSize (t - 8 - p.length) = trailerSize := by
      simp [trailerSize]
      omega
    rw [this]
    exact List.take_left' (by simp [trailerBytes, le64_length, trailerSize])
  rw [htr8, readLE_trailerBytes, if_neg (by simp)]
  have hcrcc : crcComputed ((encodeBytes p).take t) p.length =
      crc32 (le32 p.length ++ p) := by
    unfold crcComputed
    rw [hdrop4, List.take_take, hdrop4eb]
    have : min (lenSize + p.length) (t - crcSize) = lenSize + p.length := by
      simp [lenSize, crcSize]
      omega
    rw [this]
    have h4 : lenSize + p.length = (le32 p.length).length + p.length := by
      simp [lenSize, le32_length]
    rw [h4, List.take_append, List.take_left' rfl]
  rw [hcrcc, if_neg (by simp [readLE_le32 (crc32_lt (le32 p.length ++ p))])]
  rw [if_pos (show t < encSize p.length from by omega)]

/-! ### Single-bit flips -/

theorem flipBitAt_length (bs : List Nat) (bit : Nat) :
    (flipBitAt bs bit).length = bs.length := by
  simp [flipBitAt]

theorem flipBitAt_append_left {a : List Nat} (b : List Nat) {bit : Nat}
    (h : bit / 8 < a.length) :
    flipBitAt (a ++ b) bit = flipBitAt a bit ++ b := by
  unfold flipBitAt
  rw [List.getD_append _ _ _ _ h, List.set_append_left _ _ h]

theorem flipBitAt_append_right {a : List Nat} (b : List Nat) {bit : Nat}
    (h : a.length ≤ bit / 8) :
    flipBitAt (a ++ b) bit = a ++ flipBitAt b (bit - 8 * a.length) := by
  unfold flipBitAt
  have hq : (bit - 8 * a.length) / 8 = bit / 8 - a.length := by omega
  have hr : (bit - 8 * a.length) % 8 = bit % 8 := by omega
  rw [hq, hr, List.getD_append_right _ _ _ _ h, List.set_append_right _ _ h]

theorem flipBitAt_ne {bs : List Nat} {bit : Nat} (h : bit / 8 < bs.length) :
    flipBitAt bs bit ≠ bs := by
  intro heq
  have hset : (bs.set (bit / 8) (bs.getD (bit / 8) 0 ^^^ 2 ^ (bit % 8))).getD (bit / 8) 0
      = bs.getD (bit / 8) 0 ^^^ 2 ^ (bit % 8) := by
    rw [List.getD_eq_getElem _ _ (by simpa using h)]
    simp
  have heq' := congrArg (fun l => l.getD (bit / 8) 0) heq
  simp only [flipBitAt] at heq'
  rw [hset] at heq'
  have h2 : (2 : Nat) ^ (bit % 8) = 0 := by
    have hx := congrArg (fun y => bs.getD (bit / 8) 0 ^^^ y) heq'
    simp [← Nat.xor_assoc] at hx
  exact absurd h2 (by positivity)

theorem flipBitAt_wf {bs : List Nat} (hwf : ∀ x ∈ bs, x < 256) {bit : Nat} :
    ∀ x ∈ flipBitAt bs bit, x < 256 := by
  intro x hx
  unfold flipBitAt at hx
  rcases List.mem_or_eq_of_mem_set hx with h | rfl
  · exact hwf x h
  · rcases Nat.lt_or_ge (bit / 8) bs.length with hlt | hge
    · refine Nat.xor_lt_two_pow (n := 8) ?_ ?_
      · rw [List.getD_eq_getElem _ _ hlt]
        exact hwf _ (List.getElem_mem hlt)
      · have : bit % 8 < 8 := Nat.mod_lt _ (by norm_num)
        calc (2 : Nat) ^ (bit % 8) ≤ 2 ^ 7 := Nat.pow_le_pow_right (by norm_num) (by omega)
        _ < 2 ^ 8 := by norm_num
    · rw [List.getD_eq_default _ _ hge]
      have : bit % 8 < 8 := Nat.mod_lt _ (by norm_num)
      have h27 : (2:Nat) ^ (bit % 8) ≤ 2 ^ 7 := Nat.pow_le_pow_right (by norm_num) (by omega)
      simp
      omega

/-- Flipping any bit of the stored checksum field makes decode fail with
`ErrCorrupt`. -/
theorem decodeRest_flip_crc (maxP : Nat) (p tail : List Nat) (bit : Nat)
    (hlen : p.length ≤ maxP) (hm : maxP < 2 ^ 32) (hbit : bit / 8 < 4) :
    decodeRest maxP (flipBitAt (encodeBytes p) bit ++ tail) = .error .corrupt := by
  have hflip : flipBitAt (encodeBytes p) bit =
      flipBitAt (le32 (crc32 (le32 p.length ++ p))) bit ++
        (le32 p.length ++ (p ++ (trailerBytes ++ List.replicate (padLen p.length) 0))) := by
    rw [encodeBytes_assoc]
    exact flipBitAt_append_left _ (by rw [le32_length]; exact hbit)
  have hshape : flipBitAt (encodeBytes p) bit ++ tail =
      flipBitAt (le32 (crc32 (le32 p.length ++ p))) bit ++
        (le32 p.length ++ (p ++ (trailerBytes ++ (List.replicate (padLen p.length) 0 ++ tail)))) := by
    rw [hflip]
    simp [List.append_assoc]
  rw [hshape, decodeRest_structured maxP p.length _ p trailerBytes
    (List.replicate (padLen p.length) 0) tail
    (by rw [flipBitAt_length, le32_length]) rfl (by simp [trailerBytes, le64_length])
    (by simp) hlen hm]
  rw [if_neg (by simp [readLE_trailerBytes])]
  have hne : readLE (flipBitAt (le32 (crc32 (le32 p.length ++ p))) bit) ≠
      crc32 (le32 p.length ++ p) := by
    intro heq
    have hfne : flipBitAt (le32 (crc32 (le32 p.length ++ p))) bit ≠
        le32 (crc32 (le32 p.length ++ p)) :=
      flipBitAt_ne (by rw [le32_length]; exact hbit)
    apply hfne
    refine readLE_inj (by rw [flipBitAt_length]) (flipBitAt_wf (le32_wf _)) (le32_wf _) ?_
    rw [heq, readLE_le32 (crc32_lt _)]
  rw [if_pos (by simpa using hne)]

/-- Flipping any bit of the payload bytes makes decode fail with
`ErrCorrupt`. -/
theorem decodeRest_flip_payload (maxP : Nat) (p tail : List Nat) (bit : Nat)
    (hlen : p.length ≤ maxP) (hm : maxP < 2 ^ 32) (hwf : WFPayload p)
    (hbit1 : 8 ≤ bit / 8) (hbit2 : bit / 8 < 8 + p.length) :
    decodeRest maxP (flipBitAt (encodeBytes p) bit ++ tail) = .error .corrupt := by
  have hi : bit / 8 - 8 < p.length := by omega
  have hsplit : encodeBytes p = (le32 (crc32 (le32 p.length ++ p)) ++ le32 p.length) ++
      (p ++ (trailerBytes ++ List.replicate (padLen p.length) 0)) := by
    simp [encodeBytes, List.append_assoc]
  have hlen8 : (le32 (crc32 (le32 p.length ++ p)) ++ le32 p.length).length = 8 := by
    simp [le32_length]
  have hflip1 : flipBitAt (encodeBytes p) bit =
      (le32 (crc32 (le32 p.length ++ p)) ++ le32 p.length) ++
        flipBitAt (p ++ (trailerBytes ++ List.replicate (padLen p.length) 0)) (bit - 64) := by
    rw [hsplit, flipBitAt_append_right _ (by rw [hlen8]; exact hbit1), hlen8]
  have hinq : (bit - 64) / 8 = bit / 8 - 8 := by omega
  have hflip2 : flipBitAt (p ++ (trailerBytes ++ List.replicate (padLen p.length) 0)) (bit - 64)
      = flipBitAt p (bit - 64) ++ (trailerBytes ++ List.replicate (padLen p.length) 0) :=
    flipBitAt_append_left _ (by rw [hinq]; exact hi)
  have hp'len : (flipBitAt p (bit - 64)).length = p.length := flipBitAt_length _ _
  have hshape : flipBitAt (encodeBytes p) bit ++ tail =
      le32 (crc32 (le32 p.length ++ p)) ++ (le32 p.length ++
        (flipBitAt p (bit - 64) ++ (trailerBytes ++ (List.replicate (padLen p.length) 0 ++ tail)))) := by
    rw [hflip1, hflip2]
    simp [List.append_assoc]
  rw [hshape, decodeRest_structured maxP p.length _ _ trailerBytes
    (List.replicate (padLen p.length) 0) tail (le32_length _) hp'len
    (by simp [trailerBytes, le64_length]) (by simp) hlen hm]
  rw [if_neg (by simp [readLE_trailerBytes])]
  have hcrcne : crc32 (le32 p.length ++ p) ≠ crc32 (le32 p.length ++ flipBitAt p (bit - 64)) := by
    have hinr : (bit - 64) % 8 = bit % 8 := by omega
    have hb : p.getD (bit / 8 - 8) 0 = p.get ⟨bit / 8 - 8, hi⟩ := by
      rw [List.getD_eq_getElem _ _ hi]
      rfl
    have hblt : p.get ⟨bit / 8 - 8, hi⟩ < 256 := hwf _ (p.get_mem _ hi)
    have helt : (2 : Nat) ^ (bit % 8) < 256 := by
      have : bit % 8 < 8 := Nat.mod_lt _ (by norm_num)
      calc (2 : Nat) ^ (bit % 8) ≤ 2 ^ 7 := Nat.pow_le_pow_right (by norm_num) (by omega)
      _ < 256 := by norm_num
    have hbne : p.get ⟨bit / 8 - 8, hi⟩ ≠ p.get ⟨bit / 8 - 8, hi⟩ ^^^ 2 ^ (bit % 8) := by
      intro hx
      have h0 := congrArg (fun y => p.get ⟨bit / 8 - 8, hi⟩ ^^^ y) hx
      simp [← Nat.xor_assoc] at h0
      have h2 := Nat.two_pow_pos (bit % 8)
      omega
    have hxlt : p.get ⟨bit / 8 - 8, hi⟩ ^^^ 2 ^ (bit % 8) < 256 :=
      Nat.xor_lt_two_pow (n := 8) hblt helt
    have hflipP : flipBitAt p (bit - 64) =
        p.take (bit / 8 - 8) ++ (p.get ⟨bit / 8 - 8, hi⟩ ^^^ 2 ^ (bit % 8)) :: p.drop (bit / 8 - 8 + 1) := by
      unfold flipBitAt
      rw [hinq, hinr, hb, List.set_eq_take_append_cons_drop, if_pos hi]
    have hsplitP : p = p.take (bit / 8 - 8) ++ p.get ⟨bit / 8 - 8, hi⟩ :: p.drop (bit / 8 - 8 + 1) := by
      conv_lhs => rw [← List.take_append_drop (bit / 8 - 8) p]
      congr 1
      rw [show p.get ⟨bit / 8 - 8, hi⟩ = p[bit / 8 - 8] from rfl, List.getElem_cons_drop]
    have hkey := crc32_single_byte_ne (le32 p.length ++ p.take (bit / 8 - 8))
      (p.drop (bit / 8 - 8 + 1))
      (p.get ⟨bit / 8 - 8, hi⟩) (p.get ⟨bit / 8 - 8, hi⟩ ^^^ 2 ^ (bit % 8))
      (by rw [Nat.mod_eq_of_lt hblt, Nat.mod_eq_of_lt hxlt]; exact hbne)
    intro heq
    apply hkey
    rw [show (le32 p.length ++ p.take (bit / 8 - 8)) ++
        p.get ⟨bit / 8 - 8, hi⟩ :: p.drop (bit / 8 - 8 + 1) =
        le32 p.length ++ (p.take (bit / 8 - 8) ++ p.get ⟨bit / 8 - 8, hi⟩ :: p.drop (bit / 8 - 8 + 1)) from by
      simp [List.append_assoc]]
    rw [← hsplitP, heq]
    rw [show (le32 p.length ++ p.take (bit / 8 - 8)) ++
        (p.get ⟨bit / 8 - 8, hi⟩ ^^^ 2 ^ (bit % 8)) :: p.drop (bit / 8 - 8 + 1) =
        le32 p.length ++ (p.take (bit / 8 - 8) ++
          (p.get ⟨bit / 8 - 8, hi⟩ ^^^ 2 ^ (bit % 8)) :: p.drop (bit / 8 - 8 + 1)) from by
      simp [List.append_assoc]]
    rw [← hflipP]
  rw [if_pos (by rw [readLE_le32 (crc32_lt _)]; simpa using hcrcne)]

/-! ### Assembling scans of whole logs -/

theorem logBytes_append (a b : List (List Nat)) :
    logBytes (a ++ b) = logBytes a ++ logBytes b := by
  simp [logBytes]

theorem log_split (ps : List (List Nat)) (k : Nat) (hk : k < ps.length) :
    logBytes ps = logBytes (ps.take k) ++
      (encodeBytes (ps.get ⟨k, hk⟩) ++ logBytes (ps.drop (k + 1))) := by
  conv_lhs => rw [← List.take_append_drop k ps]
  rw [logBytes_append]
  congr 1
  rw [show ps.drop k = ps.get ⟨k, hk⟩ :: ps.drop (k + 1) from
    (List.getElem_cons_drop ps k hk).symm, logBytes_cons]

theorem offsetOf_succ (ps : List (List Nat)) (k : Nat) (hk : k < ps.length) :
    offsetOf ps (k + 1) = offsetOf ps k + encSize (ps.get ⟨k, hk⟩).length := by
  unfold offsetOf
  have hk' : k < (ps.map fun p => encSize p.length).length := by simpa using hk
  rw [List.map_take, List.map_take, List.sum_take_succ _ _ hk']
  simp

/-- A scan of a file whose very first decode fails stops immediately. -/
theorem Scan_stop (maxP : Nat) (file : List Nat) {e : Err}
    (hd : decodeRest maxP file = .error e) :
    Scan maxP file = ⟨[], 0, errOutcome e⟩ := by
  unfold Scan
  exact scanAux_err file.length (by unfold decode; rw [List.drop_zero]; exact hd)

/-- A scan of a fully-written log followed by bytes on which the scan stops
at once: all log records, then stop at the log's end. -/
theorem Scan_log_stop (maxP : Nat) (ps : List (List Nat)) (junk : List Nat)
    {oc : Outcome} (hlen : ∀ p ∈ ps, p.length ≤ maxP) (hm : maxP < 2 ^ 32)
    (hjunk : Scan maxP junk = ⟨[], 0, oc⟩) :
    Scan maxP (logBytes ps ++ junk) = ⟨recsFrom 0 ps, (logBytes ps).length, oc⟩ := by
  rw [Scan_log_append maxP ps junk hlen hm, hjunk]
  simp

theorem Scan_nil (maxP : Nat) : Scan maxP [] = ⟨[], 0, .clean⟩ := by
  have hd : decode maxP [] 0 = Except.error Err.shortRead := rfl
  unfold Scan
  exact scanAux_err 0 hd

/-! ### Claim theorems -/

/-- C10: `alignUp n = (n + 7) &^ 7` — for every nonnegative 64-bit `n`
whose `n + 7` does not overflow — is the least multiple of 8 greater than
or equal to `n`, exceeds `n` by at most 7, and is idempotent. -/
theorem alignUp_spec (n : Nat) (h : n + 7 < 2 ^ 64) :
    n ≤ alignUp n ∧ alignUp n % 8 = 0 ∧ alignUp n - n ≤ 7 ∧
      (∀ m, n ≤ m → m % 8 = 0 → alignUp n ≤ m) ∧
      alignUp (alignUp n) = alignUp n := by
  have h1 := alignUp_eq n
  have h2 := alignUp_eq (alignUp n)
  refine ⟨by omega, by omega, by omega, fun m hm hm8 => by omega, by omega⟩

theorem alignUp_spec_witness :
    5 + 7 < 2 ^ 64 ∧ (5 ≤ alignUp 5 ∧ alignUp 5 % 8 = 0 ∧ alignUp 5 - 5 ≤ 7 ∧
      (∀ m, 5 ≤ m → m % 8 = 0 → alignUp 5 ≤ m) ∧
      alignUp (alignUp 5) = alignUp 5) :=
  ⟨by decide, alignUp_spec 5 (by decide)⟩

/-- C9: `Append` of a payload longer than the configured maximum returns
`ErrPayloadTooLarge` and leaves the writer — its file contents and its
append offset — entirely unchanged; no bytes are written. -/
theorem append_oversized (w : Writer) (p : List Nat) (h : p.length > w.maxPayload) :
    Append w p = (.error .payloadTooLarge, w) := by
  unfold Append
  rw [if_pos h]

theorem append_oversized_witness :
    ([1, 2, 3] : List Nat).length > (Writer.mk 2 [9] 8).maxPayload ∧
      Append (Writer.mk 2 [9] 8) [1, 2, 3] = (.error .payloadTooLarge, Writer.mk 2 [9] 8) :=
  ⟨by decide, append_oversized (Writer.mk 2 [9] 8) [1, 2, 3] (by decide)⟩

/-- C7: `Scan` is read-only — as a state-passing operation it returns the
file bytes unchanged — and truncation to the safe offset happens only in
`Open`, which cuts the file to exactly the scan's safe offset, a prefix of
the original contents (never touching the interior). -/
theorem scan_readonly (maxP : Nat) (file : List Nat) :
    (ScanFile maxP file).2 = file ∧
    (Open maxP file).file = file.take (Scan maxP file).safeOffset ∧
    (Open maxP file).offset = (Scan maxP file).safeOffset ∧
    (∃ t, (Open maxP file).file ++ t = file) ∧
    (Open maxP file).file.length = (Scan maxP file).safeOffset := by
  have hs := scanAux_spec maxP file (file.length + 1) 0 (by omega) (by omega)
  have hle : (Scan maxP file).safeOffset ≤ file.length := hs.2.1
  refine ⟨rfl, rfl, rfl,
    ⟨file.drop (Scan maxP file).safeOffset, List.take_append_drop _ _⟩, ?_⟩
  simp [Open, List.length_take]
  omega

/-- C8: the safe offset always equals the end offset of the last returned
record (0 when no record is returned, in particular on the empty file), is
a multiple of 8, never exceeds the file length, and is the exact offset at
which the scan's first decode failure occurred. -/
theorem safeOffset_invariant (maxP : Nat) (file : List Nat) :
    ((Scan maxP file).safeOffset =
      match (Scan maxP file).records.getLast? with
      | none => 0
      | some q => q.1 + encSize q.2.length) ∧
    (Scan maxP file).safeOffset % 8 = 0 ∧
    (Scan maxP file).safeOffset ≤ file.length ∧
    (∃ e, decode maxP file (Scan maxP file).safeOffset = .error e) ∧
    Scan maxP [] = ⟨[], 0, .clean⟩ := by
  have hs := scanAux_spec maxP file (file.length + 1) 0 (by omega) (by omega)
  obtain ⟨hchain, hle, hout⟩ := hs
  refine ⟨Chain_getLast hchain, Chain_mod hchain (by norm_num), hle, ?_, Scan_nil maxP⟩
  rcases hout with h | h | h | h <;> exact ⟨_, h.1⟩

/-- C2: when decode fails with `ErrIncompleteRecord` or `ErrCorrupt` at the
offset the scanner has reached, the scan stops immediately: it returns no
record from that offset onward and reports that offset as the safe offset
— it never skips forward past a bad record; in a full scan every returned
record lies strictly before the safe offset. -/
theorem scan_stops_on_failure (maxP : Nat) (file : List Nat) (fuel off : Nat)
    (hfuel : 0 < fuel) :
    (decode maxP file off = .error .incompleteRecord →
      scanAux maxP file fuel off = ⟨[], off, .incomplete⟩) ∧
    (decode maxP file off = .error .corrupt →
      scanAux maxP file fuel off = ⟨[], off, .corrupt⟩) ∧
    (∀ q ∈ (Scan maxP file).records, q.1 < (Scan maxP file).safeOffset) := by
  obtain ⟨f, rfl⟩ : ∃ f, fuel = f + 1 := ⟨fuel - 1, by omega⟩
  refine ⟨fun hd => ?_, fun hd => ?_, fun q hq => ?_⟩
  · rw [scanAux_err f hd]
    rfl
  · rw [scanAux_err f hd]
    rfl
  · have hs := scanAux_spec maxP file (file.length + 1) 0 (by omega) (by omega)
    exact (Chain_mem_lt hs.1 q hq).2

theorem scan_stops_on_failure_witness :
    0 < 1 ∧ scanAux 64 (List.replicate 16 0) 1 0 = ⟨[], 0, .incomplete⟩ :=
  ⟨by decide,
    (scan_stops_on_failure 64 (List.replicate 16 0) 1 0 (by decide)).1 rfl⟩

/-- C4: the stored checksum of an encoded record is the CRC-32 of exactly
the 4-byte length field concatenated with the payload, and decode
recomputes the checksum over exactly that same byte range (bytes 4 to
8 + len of the record), so the verification depends neither on the
checksum field itself nor on the trailer or padding bytes. -/
theorem checksum_coverage :
    (∀ p : List Nat, (encodeBytes p).take crcSize = le32 (crc32 (le32 p.length ++ p))) ∧
    (∀ (rest : List Nat) (len : Nat),
      crcComputed rest len =
        crc32 ((rest.drop crcSize).take lenSize ++ (rest.drop headerSize).take len)) ∧
    (∀ (r1 r2 : List Nat) (len : Nat),
      (r1.drop crcSize).take (lenSize + len) = (r2.drop crcSize).take (lenSize + len) →
      crcComputed r1 len = crcComputed r2 len) := by
  refine ⟨fun p => ?_, fun rest len => ?_,
    fun r1 r2 len h => by rw [crcComputed, h, crcComputed]⟩
  · rw [encodeBytes_assoc]
    exact List.take_left' (le32_length _)
  · rw [crcComputed, List.take_add, List.drop_drop]
    rfl

theorem checksum_coverage_witness :
    crcComputed [1, 2, 3, 4, 9, 0, 0, 0, 42, 7] 1 =
      crcComputed [5, 6, 7, 8, 9, 0, 0, 0, 42, 8] 1 :=
  checksum_coverage.2.2 [1, 2, 3, 4, 9, 0, 0, 0, 42, 7]
    [5, 6, 7, 8, 9, 0, 0, 0, 42, 8] 1 (by decide)

/-- C3: for every payload within the configured maximum, `Encode` succeeds
(it is a function, hence deterministic), the encoded byte count is a
multiple of 8, and decoding the encoded bytes succeeds, returns exactly
the payload, and consumes exactly the encoded byte count. -/
theorem encode_roundtrip (maxP : Nat) (p : List Nat) (hlen : p.length ≤ maxP)
    (hm : maxP < 2 ^ 32) :
    encode maxP p = .ok (encodeBytes p) ∧
    (encodeBytes p).length % 8 = 0 ∧
    decode maxP (encodeBytes p) 0 = .ok (p, (encodeBytes p).length) := by
  have h := decodeRest_encode maxP p [] hlen hm
  rw [List.append_nil] at h
  refine ⟨by unfold encode; rw [if_neg (by omega)], ?_, ?_⟩
  · rw [encodeBytes_length]
    exact encSize_mod _
  · unfold decode
    rw [List.drop_zero, h, encodeBytes_length]

set_option maxRecDepth 100000 in
theorem encode_roundtrip_witness :
    ([1, 2, 3] : List Nat).length ≤ 64 ∧ (64 : Nat) < 2 ^ 32 ∧
      (encode 64 [1, 2, 3] = .ok (encodeBytes [1, 2, 3]) ∧
       (encodeBytes [1, 2, 3]).length % 8 = 0 ∧
       decode 64 (encodeBytes [1, 2, 3]) 0 = .ok ([1, 2, 3], (encodeBytes [1, 2, 3]).length)) :=
  ⟨by decide, by decide, encode_roundtrip 64 [1, 2, 3] (by decide) (by decide)⟩

/-- C5: validation order is length bound, then trailer, then checksum: a
structurally complete record whose 8 trailer bytes differ from the
sentinel decodes to `ErrIncompleteRecord` — an unfinished write, never
`ErrCorrupt` — whatever the 4-byte checksum field holds, even when its
checksum comparison would also fail, and `Scan` stops there with the
incomplete outcome. -/
theorem trailer_checked_before_checksum (maxP : Nat) (p c4 trl tail : List Nat)
    (hlen : p.length ≤ maxP) (hm : maxP < 2 ^ 32)
    (hc4 : c4.length = 4) (htrl : trl.length = 8) (hne : readLE trl ≠ trailerMagic) :
    decodeRest maxP
      (c4 ++ (le32 p.length ++ (p ++ (trl ++ (List.replicate (padLen p.length) 0 ++ tail))))) =
      .error .incompleteRecord ∧
    Scan maxP
      (c4 ++ (le32 p.length ++ (p ++ (trl ++ (List.replicate (padLen p.length) 0 ++ tail))))) =
      ⟨[], 0, .incomplete⟩ := by
  have hd := decodeRest_structured maxP p.length c4 p trl (List.replicate (padLen p.length) 0)
    tail hc4 rfl htrl (by simp) hlen hm
  rw [if_pos hne] at hd
  refine ⟨hd, ?_⟩
  rw [Scan_stop maxP _ hd]
  rfl

theorem trailer_checked_before_checksum_witness :
    Scan 64 (List.replicate 16 0) = ⟨[], 0, .incomplete⟩ := by
  have h := (trailer_checked_before_checksum 64 [] (List.replicate 4 0) (List.replicate 8 0) []
    (by decide) (by decide) (by decide) (by decide) (by decide)).2
  have he : List.replicate 4 (0 : Nat) ++ (le32 (List.length ([] : List Nat)) ++
      (([] : List Nat) ++ (List.replicate 8 0 ++
        (List.replicate (padLen (List.length ([] : List Nat))) 0 ++ [])))) =
      List.replicate 16 0 := by decide
  rw [he] at h
  exact h

/-- C1: truncating a fully-written log at any byte offset strictly inside
record k's encoded range makes `Scan` return exactly the records before
record k, with safe offset equal to record k-1's end offset — the start
offset of record k, which is 0 when k is the first record — and no
truncated prefix of record k is ever returned as a record. -/
theorem truncation_safety (maxP : Nat) (ps : List (List Nat)) (k t : Nat)
    (hwf : WFLog maxP ps) (hm : maxP < 2 ^ 32) (hk : k < ps.length)
    (ht1 : offsetOf ps k < t) (ht2 : t < offsetOf ps (k + 1)) :
    Scan maxP ((logBytes ps).take t) =
      ⟨recsFrom 0 (ps.take k), offsetOf ps k, .clean⟩ := by
  have hlen : ∀ q ∈ ps.take k, q.length ≤ maxP :=
    fun q hq => (hwf q (List.take_subset k ps hq)).1
  have hpk : (ps.get ⟨k, hk⟩).length ≤ maxP := (hwf _ (ps.get_mem k hk)).1
  have hA : offsetOf ps k = (logBytes (ps.take k)).length := offsetOf_eq ps k
  have hsucc := offsetOf_succ ps k hk
  obtain ⟨u, rfl⟩ : ∃ u, t = offsetOf ps k + u := ⟨t - offsetOf ps k, by omega⟩
  have htlt : u < (encodeBytes (ps.get ⟨k, hk⟩)).length := by
    rw [encodeBytes_length]
    omega
  have hsplitfile : (logBytes ps).take (offsetOf ps k + u) =
      logBytes (ps.take k) ++ (encodeBytes (ps.get ⟨k, hk⟩)).take u := by
    rw [log_split ps k hk, hA, List.take_append]
    congr 1
    exact List.take_append_of_le_length (le_of_lt htlt)
  rw [hsplitfile,
    Scan_log_stop maxP (ps.take k) _ hlen hm
      (Scan_stop maxP _ (decodeRest_take_encode maxP _ _ hpk hm htlt)), ← hA]
  rfl

set_option maxRecDepth 400000 in
theorem truncation_safety_witness :
    Scan 64 ((logBytes [[1], [2]]).take 25) =
      ⟨recsFrom 0 (([[1], [2]] : List (List Nat)).take 1), offsetOf [[1], [2]] 1, .clean⟩ :=
  truncation_safety 64 [[1], [2]] 1 25 (by decide) (by decide) (by decide) (by decide)
    (by decide)

/-- C6 (amended): in a fully-written log, flipping any single bit within a
record's 4-byte checksum field or within its payload bytes makes `Scan`
stop at that record with the corrupt outcome, returning exactly the
records before it and never a decoded payload different from the one
written.  The guarantee does not extend to the length field: a flip there
need not yield a corruption outcome (see the counterexample, where it
yields a clean short-read stop). -/
theorem bitflip_detection (maxP : Nat) (ps : List (List Nat)) (k bit : Nat)
    (hwf : WFLog maxP ps) (hm : maxP < 2 ^ 32) (hk : k < ps.length)
    (hbit : (8 * offsetOf ps k ≤ bit ∧ bit < 8 * offsetOf ps k + 32) ∨
            (8 * (offsetOf ps k + 8) ≤ bit ∧
             bit < 8 * (offsetOf ps k + 8) + 8 * (ps.get ⟨k, hk⟩).length)) :
    Scan maxP (flipBitAt (logBytes ps) bit) =
      ⟨recsFrom 0 (ps.take k), offsetOf ps k, .corrupt⟩ := by
  have hlen : ∀ q ∈ ps.take k, q.length ≤ maxP :=
    fun q hq => (hwf q (List.take_subset k ps hq)).1
  have hpk : (ps.get ⟨k, hk⟩).length ≤ maxP := (hwf _ (ps.get_mem k hk)).1
  have hpkwf : WFPayload (ps.get ⟨k, hk⟩) := (hwf _ (ps.get_mem k hk)).2
  have hA : offsetOf ps k = (logBytes (ps.take k)).length := offsetOf_eq ps k
  have hge : (logBytes (ps.take k)).length ≤ bit / 8 := by
    rcases hbit with ⟨h1, h2⟩ | ⟨h1, h2⟩ <;> omega
  have hflip1 : flipBitAt (logBytes ps) bit =
      logBytes (ps.take k) ++
        flipBitAt (encodeBytes (ps.get ⟨k, hk⟩) ++ logBytes (ps.drop (k + 1)))
          (bit - 8 * (logBytes (ps.take k)).length) := by
    rw [log_split ps k hk]
    exact flipBitAt_append_right _ hge
  have h16 := encSize_ge (ps.get ⟨k, hk⟩).length
  have hblen : (bit - 8 * (logBytes (ps.take k)).length) / 8 <
      (encodeBytes (ps.get ⟨k, hk⟩)).length := by
    rw [encodeBytes_length]
    rcases hbit with ⟨h1, h2⟩ | ⟨h1, h2⟩ <;> omega
  have hflip2 : flipBitAt (encodeBytes (ps.get ⟨k, hk⟩) ++ logBytes (ps.drop (k + 1)))
        (bit - 8 * (logBytes (ps.take k)).length) =
      flipBitAt (encodeBytes (ps.get ⟨k, hk⟩)) (bit - 8 * (logBytes (ps.take k)).length) ++
        logBytes (ps.drop (k + 1)) :=
    flipBitAt_append_left _ hblen
  have hd : decodeRest maxP
      (flipBitAt (encodeBytes (ps.get ⟨k, hk⟩)) (bit - 8 * (logBytes (ps.take k)).length) ++
        logBytes (ps.drop (k + 1))) = .error .corrupt := by
    rcases hbit with ⟨h1, h2⟩ | ⟨h1, h2⟩
    · exact decodeRest_flip_crc maxP _ _ _ hpk hm (by omega)
    · exact decodeRest_flip_payload maxP _ _ _ hpk hm hpkwf (by omega) (by omega)
  rw [hflip1, hflip2, Scan_log_stop maxP (ps.take k) _ hlen hm (Scan_stop maxP _ hd), ← hA]
  rfl

set_option maxRecDepth 400000 in
theorem bitflip_detection_witness :
    Scan 64 (flipBitAt (logBytes [[42]]) 0) =
      ⟨recsFrom 0 (([[42]] : List (List Nat)).take 0), offsetOf [[42]] 0, .corrupt⟩ :=
  bitflip_detection 64 [[42]] 0 0 (by decide) (by decide) (by decide)
    (Or.inl (by decide))

set_option maxRecDepth 400000 in
/-- C6 (counterexample): in the valid single-record log for payload `[42]`
under maximum 64, flipping bit 35 — bit 3 of the first byte of the length
field, the field's byte range being bytes 4 to 7 — turns the length 1 into
9, and the scan stops with the CLEAN (short-read) outcome rather than any
corruption outcome: a single-bit flip inside the length field does not
always cause a corruption outcome as the claim states. -/
theorem bitflip_length_field_not_corrupt :
    WFLog 64 [[42]] ∧ 8 * 4 ≤ 35 ∧ 35 < 8 * 8 ∧
    Scan 64 (flipBitAt (logBytes [[42]]) 35) = ⟨[], 0, .clean⟩ ∧
    Outcome.clean ≠ Outcome.corrupt ∧ Outcome.clean ≠ Outcome.incomplete := by
  refine ⟨by decide, by decide, by decide, by decide, by decide, by decide⟩

end WAL

